import Mathlib

/-!
Verification of the Readwise→Notion sync script (`readwise_notion_sync.py`).

The script's pure logic is embedded shallowly:
  * `normalize_text` mirrors `ReadwiseNotionSync.normalize_text` (regex
    substitutions over Unicode strings become explicit character-list
    transformations);
  * the highlight-appending logic of `append_highlights_to_page` becomes a
    pure function from the existing-fingerprint set and the fetched
    highlights to the list of PATCH request payloads;
  * `update_notion_page`'s property patch becomes a pure payload builder;
  * `full_sync` becomes a state-machine over an environment record that
    supplies the results of every network call, producing a trace of
    effects, the final persisted state and an optional fatal error;
  * `main`'s top-level `try/except` becomes a function from the body's
    outcome to the printed report and the process exit status.
-/

namespace RWSync

/-- Python `\s` / `str.isspace()` whitespace, by Unicode code point
(ASCII whitespace, the C1 separators, NEL, NBSP and the Unicode space
separators). -/
def isPySpace (c : Char) : Bool :=
  decide ((9 ≤ c.toNat ∧ c.toNat ≤ 13) ∨ (28 ≤ c.toNat ∧ c.toNat ≤ 32) ∨
    c.toNat = 133 ∨ c.toNat = 160 ∨ c.toNat = 0x1680 ∨
    (0x2000 ≤ c.toNat ∧ c.toNat ≤ 0x200A) ∨ c.toNat = 0x2028 ∨
    c.toNat = 0x2029 ∨ c.toNat = 0x202F ∨ c.toNat = 0x205F ∨ c.toNat = 0x3000)

/-- `re.sub(r'\*\*', '', text)`: delete the leftmost non-overlapping
occurrences of two consecutive asterisks. -/
def subDoubleStar : List Char → List Char
  | '*' :: '*' :: rest => subDoubleStar rest
  | c :: rest => c :: subDoubleStar rest
  | [] => []

/-- `re.sub(r'\*', '', text)`: delete every asterisk. -/
def subStar (l : List Char) : List Char :=
  l.filter (fun c => !(c == '*'))

/-- `re.sub(r'__', '', text)`: delete the leftmost non-overlapping
occurrences of two consecutive underscores. -/
def subDoubleUnderscore : List Char → List Char
  | '_' :: '_' :: rest => subDoubleUnderscore rest
  | c :: rest => c :: subDoubleUnderscore rest
  | [] => []

/-- `re.sub(r'_', '', text)`: delete every underscore. -/
def subUnderscore (l : List Char) : List Char :=
  l.filter (fun c => !(c == '_'))

/-- `text.strip()`: drop whitespace from both ends. -/
def stripChars (l : List Char) : List Char :=
  (((l.dropWhile isPySpace).reverse.dropWhile isPySpace).reverse)

/-- `re.sub(r'\s+', ' ', text)`: replace every maximal whitespace run by a
single space. -/
def collapseWS : List Char → List Char
  | [] => []
  | [c] => if isPySpace c then [' '] else [c]
  | c :: d :: rest =>
    if isPySpace c then
      if isPySpace d then collapseWS (d :: rest)
      else ' ' :: collapseWS (d :: rest)
    else c :: collapseWS (d :: rest)

/-- `text.lower()` (ASCII range, as Lean's `Char.toLower`). -/
def lowerChars (l : List Char) : List Char :=
  l.map Char.toLower

/-- The pipeline of `ReadwiseNotionSync.normalize_text`, on character
lists: strip `**`, `*`, `__`, `_`, then collapse whitespace of the
stripped text, then lowercase. -/
def normalizeChars (l : List Char) : List Char :=
  lowerChars (collapseWS (stripChars
    (subUnderscore (subDoubleUnderscore (subStar (subDoubleStar l))))))

/-- `ReadwiseNotionSync.normalize_text`. -/
def normalize_text (s : String) : String :=
  String.mk (normalizeChars s.data)

/-- A Readwise highlight as used by the script: `text`, optional `note`
and optional creation timestamp `highlighted_at` (ISO strings; a missing
key reads as the Python defaults `''`/`None`). -/
structure Highlight where
  text : String
  note : Option String
  highlighted_at : Option String
deriving Repr, DecidableEq

/-- A Readwise item (`book` in the API): the fields the script reads. -/
structure Book where
  id : Nat
  title : String
  author : String
  category : String
  num_highlights : Nat
  cover_image_url : Option String
  last_highlight_at : Option String
deriving Repr, DecidableEq

/-- The slice of a Notion page the sync reads: its id and the value of the
`Highlights` number property (absent reads as 0 via `.get(..., 0)`). -/
structure Page where
  pid : String
  highlightsNumber : Option Nat
deriving Repr, DecidableEq

/-- Python string slicing `s[:n]`. -/
def pyTake (n : Nat) (s : String) : String :=
  String.mk (s.data.take n)

/-- The fingerprint of a highlight text:
`self.normalize_text(highlight_text[:1000])`. -/
def fingerprintOf (text : String) : String :=
  normalize_text (pyTake 1000 text)

/-- A Notion content block as built by `append_highlights_to_page`: a quote
block for the highlight text, or a callout block for its note. -/
inductive Block where
  | quote (text : String)
  | callout (text : String) (icon : String)
deriving Repr, DecidableEq

/-- The sort key `h.get('highlighted_at', '')`. -/
def hkey (h : Highlight) : String :=
  h.highlighted_at.getD ""

/-- The comparison used by `sorted(highlights, key=...)`. -/
def highlightLE (a b : Highlight) : Prop :=
  hkey a ≤ hkey b

instance : DecidableRel highlightLE :=
  fun a b => inferInstanceAs (Decidable (hkey a ≤ hkey b))

instance : IsTotal Highlight highlightLE :=
  ⟨fun a b => le_total (hkey a) (hkey b)⟩

instance : IsTrans Highlight highlightLE :=
  ⟨fun _ _ _ hab hbc => le_trans hab hbc⟩

/-- `sorted(highlights, key=lambda h: h.get('highlighted_at', ''))`. -/
def sortHighlights (hs : List Highlight) : List Highlight :=
  List.insertionSort highlightLE hs

/-- The blocks one highlight contributes inside the loop of
`append_highlights_to_page`: nothing if its fingerprint is already on the
page, else a quote block (text truncated to 2000 characters) followed by a
callout block when a (truthy, i.e. non-empty) note exists. -/
def highlightBlocks (existing : List String) (h : Highlight) : List Block :=
  if fingerprintOf h.text ∈ existing then []
  else
    Block.quote (pyTake 2000 h.text) ::
      (if h.note.getD "" ≠ "" then
        [Block.callout ("Note: " ++ pyTake 2000 (h.note.getD "")) "💭"]
      else [])

/-- The loop state of `append_highlights_to_page`: accumulated blocks and
the `new_count` / `skipped_count` counters. -/
structure AppendAcc where
  blocks : List Block
  newCount : Nat
  skippedCount : Nat
deriving Repr, DecidableEq

/-- One iteration of the `for highlight in highlights_sorted` loop. -/
def appendStep (existing : List String) (acc : AppendAcc) (h : Highlight) : AppendAcc :=
  if fingerprintOf h.text ∈ existing then
    { acc with skippedCount := acc.skippedCount + 1 }
  else
    let acc1 : AppendAcc :=
      { acc with
        blocks := acc.blocks ++ [Block.quote (pyTake 2000 h.text)],
        newCount := acc.newCount + 1 }
    if h.note.getD "" ≠ "" then
      { acc1 with
        blocks := acc1.blocks ++
          [Block.callout ("Note: " ++ pyTake 2000 (h.note.getD "")) "💭"] }
    else acc1

/-- The accumulator after the whole loop, starting from the sorted input. -/
def appendLoop (existing : List String) (hs : List Highlight) : AppendAcc :=
  (sortHighlights hs).foldl (appendStep existing) ⟨[], 0, 0⟩

/-- `for i in range(0, len(blocks), 100): blocks[i:i+100]`, written with a
structurally decreasing capacity counter. -/
def chunkGo : List Block → List Block → Nat → List (List Block)
  | [], cur, _ => if cur.isEmpty then [] else [cur.reverse]
  | b :: rest, cur, cap =>
    if cap ≤ 1 then (b :: cur).reverse :: chunkGo rest [] 100
    else chunkGo rest (b :: cur) (cap - 1)

/-- Split the block list into the ≤100-block PATCH request payloads. -/
def chunk100 (l : List Block) : List (List Block) :=
  chunkGo l [] 100

/-- The pure content of `ReadwiseNotionSync.append_highlights_to_page`:
given the fingerprints of the page's existing quote blocks and the fetched
highlights, the list of PATCH request payloads it submits (empty when
`new_count == 0`, i.e. no network call). -/
def append_highlights_to_page (existing : List String) (hs : List Highlight) :
    List (List Block) :=
  let acc := appendLoop existing hs
  if acc.newCount = 0 then [] else chunk100 acc.blocks

/-- A Notion property value as sent by the script. -/
inductive PropValue where
  | number (n : Nat)
  | date (start : String)
deriving Repr, DecidableEq

/-- The PATCH payload of `update_notion_page`: the `properties` dict plus
the optional `cover` and `icon` external-image URLs. -/
structure UpdatePayload where
  properties : List (String × PropValue)
  cover : Option String
  icon : Option String
deriving Repr, DecidableEq

/-- The payload `ReadwiseNotionSync.update_notion_page` builds for a book
(`current_time` is the `datetime.utcnow().isoformat()` taken at the call). -/
def update_notion_page (current_time : String) (b : Book) : UpdatePayload :=
  { properties :=
      [("Highlights", PropValue.number b.num_highlights),
       ("Last Synced", PropValue.date current_time)] ++
      (match b.last_highlight_at with
       | some d => [("Last Highlighted", PropValue.date d)]
       | none => []),
    cover := b.cover_image_url,
    icon := b.cover_image_url }

/-- A Python exception: its type name and message. -/
structure PyErr where
  typeName : String
  message : String
deriving Repr, DecidableEq

/-- The persisted sync state: `.last_sync_time.json` and
`.synced_items.json` (the id set kept as a list). -/
structure SyncState where
  last_sync_time : Option String
  synced_items : List Nat
deriving Repr, DecidableEq

/-- One observable side effect of a `full_sync` run, in program order. -/
inductive Effect where
  | fetchBooksEff (since : Option String)
  | searchPagesEff (titles : List String)
  | updatePageEff (pid : String) (payload : UpdatePayload)
  | createPageEff (b : Book)
  | fetchHighlightsEff (bookId : Nat) (since : Option String)
  | appendHighlightsEff (pid : String) (hs : List Highlight)
  | skipItemEff (bookId : Nat)
  | saveSyncedItemsEff (ids : List Nat)
  | saveLastSyncTimeEff (t : String)
deriving Repr, DecidableEq

/-- The outside world as `full_sync` sees it: the result of each network
call (success value or raised exception) and the current UTC time. -/
structure Env where
  fetchBooks : Option String → Except PyErr (List Book)
  searchPages : List String → Except PyErr (String → Option Page)
  fetchHighlights : Nat → Option String → Except PyErr (List Highlight)
  patchPageResult : String → Except PyErr Unit
  createPageResult : Book → Except PyErr Page
  appendResult : String → List Highlight → Except PyErr Unit
  now : String

/-- What processing one item (or a list of items) produced: the effect
trace, the ids appended to `synced_ids`, and the exception that aborted
the run, if any. -/
structure ItemResult where
  trace : List Effect
  ids : List Nat
  err : Option PyErr
deriving Repr

/-- The per-item branch of `full_sync` (lines 548–595): UPDATE when a page
with the item's title exists, SKIP when the id is in the persisted
synced-id set, CREATE otherwise. -/
def processBook (env : Env) (lastSync : Option String) (synced : List Nat)
    (pageOf : String → Option Page) (b : Book) : ItemResult :=
  match pageOf b.title with
  | some page =>
    let payload := update_notion_page env.now b
    match env.patchPageResult page.pid with
    | Except.error e => ⟨[Effect.updatePageEff page.pid payload], [], some e⟩
    | Except.ok _ =>
      if b.num_highlights > page.highlightsNumber.getD 0 then
        match env.fetchHighlights b.id lastSync with
        | Except.error e =>
          ⟨[Effect.updatePageEff page.pid payload,
            Effect.fetchHighlightsEff b.id lastSync], [b.id], some e⟩
        | Except.ok hs =>
          if hs.isEmpty then
            ⟨[Effect.updatePageEff page.pid payload,
              Effect.fetchHighlightsEff b.id lastSync], [b.id], none⟩
          else
            match env.appendResult page.pid hs with
            | Except.error e =>
              ⟨[Effect.updatePageEff page.pid payload,
                Effect.fetchHighlightsEff b.id lastSync,
                Effect.appendHighlightsEff page.pid hs], [b.id], some e⟩
            | Except.ok _ =>
              ⟨[Effect.updatePageEff page.pid payload,
                Effect.fetchHighlightsEff b.id lastSync,
                Effect.appendHighlightsEff page.pid hs], [b.id], none⟩
      else
        ⟨[Effect.updatePageEff page.pid payload], [b.id], none⟩
  | none =>
    if b.id ∈ synced then
      ⟨[Effect.skipItemEff b.id], [], none⟩
    else
      match env.createPageResult b with
      | Except.error e => ⟨[Effect.createPageEff b], [], some e⟩
      | Except.ok newPage =>
        if b.num_highlights > 0 then
          match env.fetchHighlights b.id none with
          | Except.error e =>
            ⟨[Effect.createPageEff b,
              Effect.fetchHighlightsEff b.id none], [b.id], some e⟩
          | Except.ok hs =>
            match env.appendResult newPage.pid hs with
            | Except.error e =>
              ⟨[Effect.createPageEff b,
                Effect.fetchHighlightsEff b.id none,
                Effect.appendHighlightsEff newPage.pid hs], [b.id], some e⟩
            | Except.ok _ =>
              ⟨[Effect.createPageEff b,
                Effect.fetchHighlightsEff b.id none,
                Effect.appendHighlightsEff newPage.pid hs], [b.id], none⟩
        else
          ⟨[Effect.createPageEff b], [b.id], none⟩

/-- The `for i, book in enumerate(books, 1)` loop: stop at the first
exception, otherwise concatenate traces and collected ids. -/
def processBooks (env : Env) (lastSync : Option String) (synced : List Nat)
    (pageOf : String → Option Page) : List Book → ItemResult
  | [] => ⟨[], [], none⟩
  | b :: rest =>
    let r := processBook env lastSync synced pageOf b
    match r.err with
    | some e => ⟨r.trace, r.ids, some e⟩
    | none =>
      let rs := processBooks env lastSync synced pageOf rest
      ⟨r.trace ++ rs.trace, r.ids ++ rs.ids, rs.err⟩

/-- `save_synced_items`: `self.synced_items.update(readwise_ids)` — set
union, keeping every previous member. -/
def unionIds (old : List Nat) (new : List Nat) : List Nat :=
  new.foldl (fun acc i => if i ∈ acc then acc else acc ++ [i]) old

/-- The outcome of one `full_sync` run: its effect trace, the state on
disk afterwards, and the exception that aborted it, if any. -/
structure RunResult where
  trace : List Effect
  state : SyncState
  err : Option PyErr
deriving Repr

/-- `ReadwiseNotionSync.full_sync` (lines 517–607): fetch changed items,
batch-resolve pages, process each item, and only after every item
succeeded persist the merged synced-id set and the new last-sync time. -/
def full_sync (env : Env) (st : SyncState) : RunResult :=
  match env.fetchBooks st.last_sync_time with
  | Except.error e => ⟨[Effect.fetchBooksEff st.last_sync_time], st, some e⟩
  | Except.ok books =>
    if books.isEmpty then
      ⟨[Effect.fetchBooksEff st.last_sync_time], st, none⟩
    else
      let titles := books.map (fun b => b.title)
      match env.searchPages titles with
      | Except.error e =>
        ⟨[Effect.fetchBooksEff st.last_sync_time, Effect.searchPagesEff titles], st, some e⟩
      | Except.ok pageOf =>
        let r := processBooks env st.last_sync_time st.synced_items pageOf books
        match r.err with
        | some e =>
          ⟨[Effect.fetchBooksEff st.last_sync_time, Effect.searchPagesEff titles] ++
            r.trace, st, some e⟩
        | none =>
          ⟨[Effect.fetchBooksEff st.last_sync_time, Effect.searchPagesEff titles] ++
            r.trace ++
            [Effect.saveSyncedItemsEff r.ids, Effect.saveLastSyncTimeEff env.now],
           ⟨some env.now, unionIds st.synced_items r.ids⟩, none⟩

/-- The ids of the fetched items that take the CREATE or UPDATE path in a
run (a destination page exists for the title, or the id is not in the
persisted synced-id set). -/
def runIds (env : Env) (st : SyncState) : List Nat :=
  match env.fetchBooks st.last_sync_time with
  | Except.error _ => []
  | Except.ok books =>
    if books.isEmpty then []
    else
      match env.searchPages (books.map (fun b => b.title)) with
      | Except.error _ => []
      | Except.ok pageOf =>
        (books.filter
          (fun b => (pageOf b.title).isSome || !(decide (b.id ∈ st.synced_items)))).map
          (fun b => b.id)

/-- What `main` prints and the process exit status, as a function of the
outcome of the `try` body (lines 638–690).  On an exception, `main`
prints the error summary (`type(e).__name__: str(e)`) and the traceback
and then falls off the end of the function — there is no `sys.exit`, so
the interpreter exits with status 0 either way. -/
def mainHandler (body : Except PyErr (List String)) : List String × Nat :=
  match body with
  | Except.ok out => (out ++ ["✅ Sync completed successfully!"], 0)
  | Except.error e =>
    (["❌ ERROR OCCURRED:",
      "   " ++ e.typeName ++ ": " ++ e.message,
      "📋 Full error details:",
      "<traceback>"], 0)

/-- Whitespace-normal form: every whitespace character is a plain space and
is never followed by another whitespace character. -/
def wsNormal : List Char → Prop
  | [] => True
  | [c] => isPySpace c = true → c = ' '
  | c :: d :: rest => (isPySpace c = true → (c = ' ' ∧ isPySpace d = false)) ∧ wsNormal (d :: rest)

/-- Concrete exception used to exhibit `main`'s exit status. -/
def errW : PyErr := ⟨"ValueError", "boom"⟩

/-- Number of quote blocks in a block list. -/
def countQuotes (bs : List Block) : Nat :=
  (bs.filter (fun b => match b with | Block.quote _ => true | _ => false)).length

/-- Concrete earlier highlight for the ordering witness. -/
def hlA : Highlight := ⟨"first text", none, some "2024-01-01T00:00:00Z"⟩

/-- Concrete later highlight for the ordering witness. -/
def hlB : Highlight := ⟨"second text", some "a note", some "2024-01-02T00:00:00Z"⟩

/-- Concrete page used by the run witnesses. -/
def pageW : Page := ⟨"pg1", some 1⟩

/-- Concrete item matching `pageW`'s title (UPDATE path). -/
def bookW : Book := ⟨1, "T", "Auth", "books", 2, none, some "2024-01-02T00:00:00Z"⟩

/-- Concrete item with no page whose id is already tracked (SKIP path). -/
def bookSkipW : Book := ⟨5, "U", "Auth2", "articles", 3, none, none⟩

/-- Concrete page lookup: only the title `"T"` resolves. -/
def pageOfW : String → Option Page :=
  fun t => if t = "T" then some pageW else none

/-- Concrete environment in which every call succeeds. -/
def envW : Env :=
  ⟨fun _ => Except.ok [bookW],
   fun _ => Except.ok pageOfW,
   fun _ _ => Except.ok [hlA],
   fun _ => Except.ok (),
   fun _ => Except.ok ⟨"newpg", some 0⟩,
   fun _ _ => Except.ok (),
   "2024-01-03T00:00:00"⟩

/-- Concrete persisted state: one prior sync, id 5 tracked. -/
def stW : SyncState := ⟨some "2024-01-01T00:00:00Z", [5]⟩

/-- Environment whose first fetch raises. -/
def envErrW : Env :=
  ⟨fun _ => Except.error ⟨"HTTPError", "500 Server Error"⟩,
   envW.searchPages, envW.fetchHighlights, envW.patchPageResult,
   envW.createPageResult, envW.appendResult, envW.now⟩

/-! ### Theorems -/

theorem toNat_ofNat_valid {n : Nat} (h : n.isValidChar) : (Char.ofNat n).toNat = n := by
  unfold Char.ofNat
  rw [dif_pos h]
  rfl

theorem toLower_eq_of_not_upper {c : Char} (h : ¬(65 ≤ c.toNat ∧ c.toNat ≤ 90)) :
    c.toLower = c := by
  unfold Char.toLower
  rw [if_neg]
  exact fun hc => h ⟨hc.1, hc.2⟩

theorem toLower_toNat_of_upper {c : Char} (h1 : 65 ≤ c.toNat) (h2 : c.toNat ≤ 90) :
    c.toLower.toNat = c.toNat + 32 := by
  unfold Char.toLower
  rw [if_pos ⟨h1, h2⟩]
  exact toNat_ofNat_valid (Or.inl (by omega))

theorem toLower_toLower (c : Char) : c.toLower.toLower = c.toLower := by
  by_cases h : 65 ≤ c.toNat ∧ c.toNat ≤ 90
  · have hn := toLower_toNat_of_upper h.1 h.2
    exact toLower_eq_of_not_upper (by omega)
  · rw [toLower_eq_of_not_upper h, toLower_eq_of_not_upper h]

theorem isPySpace_toLower (c : Char) : isPySpace c.toLower = isPySpace c := by
  by_cases h : 65 ≤ c.toNat ∧ c.toNat ≤ 90
  · have hn := toLower_toNat_of_upper h.1 h.2
    simp only [isPySpace]
    rw [decide_eq_decide]
    omega
  · rw [toLower_eq_of_not_upper h]

theorem toLower_eq_fixed_iff {a : Char} (ha1 : ¬(97 ≤ a.toNat ∧ a.toNat ≤ 122))
    (ha2 : ¬(65 ≤ a.toNat ∧ a.toNat ≤ 90)) (c : Char) : c.toLower = a ↔ c = a := by
  by_cases h : 65 ≤ c.toNat ∧ c.toNat ≤ 90
  · have hn := toLower_toNat_of_upper h.1 h.2
    constructor
    · intro he
      exfalso
      apply ha1
      have := congrArg Char.toNat he
      omega
    · intro he
      exfalso
      apply ha2
      have := congrArg Char.toNat he
      omega
  · rw [toLower_eq_of_not_upper h]

/-- Membership in the output of `subDoubleStar` comes from the input. -/
theorem mem_subDoubleStar {c : Char} {l : List Char} (h : c ∈ subDoubleStar l) : c ∈ l := by
  induction l using subDoubleStar.induct with
  | case1 rest ih =>
    rw [subDoubleStar.eq_1] at h
    simp only [List.mem_cons]
    exact Or.inr (Or.inr (ih h))
  | case2 a rest hcond ih =>
    rw [subDoubleStar.eq_2 a rest hcond] at h
    rcases List.mem_cons.mp h with h1 | h2
    · exact h1 ▸ List.mem_cons_self a rest
    · exact List.mem_cons_of_mem a (ih h2)
  | case3 =>
    rw [subDoubleStar.eq_3] at h
    exact absurd h (List.not_mem_nil c)

/-- `subDoubleStar` does nothing when the text has no asterisk. -/
theorem subDoubleStar_eq_self {l : List Char} (h : '*' ∉ l) : subDoubleStar l = l := by
  induction l using subDoubleStar.induct with
  | case1 rest ih =>
    exact absurd (List.mem_cons_self '*' _) h
  | case2 a rest hcond ih =>
    rw [subDoubleStar.eq_2 a rest hcond, ih (fun hm => h (List.mem_cons_of_mem a hm))]
  | case3 => exact subDoubleStar.eq_3

theorem mem_subDoubleUnderscore {c : Char} {l : List Char}
    (h : c ∈ subDoubleUnderscore l) : c ∈ l := by
  induction l using subDoubleUnderscore.induct with
  | case1 rest ih =>
    rw [subDoubleUnderscore.eq_1] at h
    simp only [List.mem_cons]
    exact Or.inr (Or.inr (ih h))
  | case2 a rest hcond ih =>
    rw [subDoubleUnderscore.eq_2 a rest hcond] at h
    rcases List.mem_cons.mp h with h1 | h2
    · exact h1 ▸ List.mem_cons_self a rest
    · exact List.mem_cons_of_mem a (ih h2)
  | case3 =>
    rw [subDoubleUnderscore.eq_3] at h
    exact absurd h (List.not_mem_nil c)

theorem subDoubleUnderscore_eq_self {l : List Char} (h : '_' ∉ l) :
    subDoubleUnderscore l = l := by
  induction l using subDoubleUnderscore.induct with
  | case1 rest ih =>
    exact absurd (List.mem_cons_self '_' _) h
  | case2 a rest hcond ih =>
    rw [subDoubleUnderscore.eq_2 a rest hcond, ih (fun hm => h (List.mem_cons_of_mem a hm))]
  | case3 => exact subDoubleUnderscore.eq_3

theorem not_star_mem_subStar {l : List Char} : '*' ∉ subStar l := by
  intro h
  have := List.of_mem_filter h
  simp at this

theorem mem_subStar {c : Char} {l : List Char} (h : c ∈ subStar l) : c ∈ l :=
  List.mem_of_mem_filter h

theorem subStar_eq_self {l : List Char} (h : '*' ∉ l) : subStar l = l :=
  List.filter_eq_self.mpr (fun a ha => by
    simp only [Bool.not_eq_eq_eq_not, Bool.not_true, beq_eq_false_iff_ne, ne_eq]
    exact fun he => h (he ▸ ha))

theorem not_underscore_mem_subUnderscore {l : List Char} : '_' ∉ subUnderscore l := by
  intro h
  have := List.of_mem_filter h
  simp at this

theorem mem_subUnderscore {c : Char} {l : List Char} (h : c ∈ subUnderscore l) : c ∈ l :=
  List.mem_of_mem_filter h

theorem subUnderscore_eq_self {l : List Char} (h : '_' ∉ l) : subUnderscore l = l :=
  List.filter_eq_self.mpr (fun a ha => by
    simp only [Bool.not_eq_eq_eq_not, Bool.not_true, beq_eq_false_iff_ne, ne_eq]
    exact fun he => h (he ▸ ha))

theorem head?_dropWhile_false {p : Char → Bool} {l : List Char} {c : Char}
    (h : (l.dropWhile p).head? = some c) : p c = false := by
  induction l with
  | nil => simp [List.dropWhile] at h
  | cons a t ih =>
    rw [List.dropWhile_cons] at h
    by_cases hp : p a = true
    · rw [if_pos hp] at h
      exact ih h
    · rw [if_neg hp] at h
      simp only [List.head?_cons, Option.some.injEq] at h
      subst h
      exact Bool.eq_false_iff.mpr hp

theorem dropWhile_eq_self_of_head {p : Char → Bool} {l : List Char}
    (h : ∀ c, l.head? = some c → p c = false) : l.dropWhile p = l := by
  cases l with
  | nil => rfl
  | cons a t =>
    rw [List.dropWhile_cons, if_neg]
    simp [h a rfl]

theorem mem_stripChars {c : Char} {l : List Char} (h : c ∈ stripChars l) : c ∈ l := by
  unfold stripChars at h
  rw [List.mem_reverse] at h
  have h2 := (List.dropWhile_suffix isPySpace).sublist.subset h
  rw [List.mem_reverse] at h2
  exact (List.dropWhile_suffix isPySpace).sublist.subset h2

theorem head?_stripChars_false {l : List Char} {c : Char}
    (h : (stripChars l).head? = some c) : isPySpace c = false := by
  unfold stripChars at h
  rw [List.head?_reverse] at h
  obtain ⟨t, ht⟩ := List.dropWhile_suffix (l := (l.dropWhile isPySpace).reverse) isPySpace
  have hgl : ((l.dropWhile isPySpace).reverse).getLast? = some c := by
    rw [← ht, List.getLast?_append, h]
    rfl
  rw [List.getLast?_reverse] at hgl
  exact head?_dropWhile_false hgl

theorem getLast?_stripChars_false {l : List Char} {c : Char}
    (h : (stripChars l).getLast? = some c) : isPySpace c = false := by
  unfold stripChars at h
  rw [List.getLast?_reverse] at h
  exact head?_dropWhile_false h

theorem stripChars_eq_self {l : List Char}
    (h1 : ∀ c, l.head? = some c → isPySpace c = false)
    (h2 : ∀ c, l.getLast? = some c → isPySpace c = false) : stripChars l = l := by
  unfold stripChars
  rw [dropWhile_eq_self_of_head h1]
  rw [dropWhile_eq_self_of_head (fun c hc => h2 c (by rw [← List.head?_reverse]; exact hc))]
  exact List.reverse_reverse l

theorem collapseWS_cons_of_not_space {d : Char} (rest : List Char)
    (hd : ¬ isPySpace d = true) : collapseWS (d :: rest) = d :: collapseWS rest := by
  cases rest with
  | nil => simp [collapseWS, hd]
  | cons e t => simp [collapseWS, hd]

theorem collapseWS_ne_nil {l : List Char} (h : l ≠ []) : collapseWS l ≠ [] := by
  induction l using collapseWS.induct with
  | case1 => exact absurd rfl h
  | case2 c hc => simp [collapseWS, hc]
  | case3 c hc => simp [collapseWS, hc]
  | case4 c d rest hc hd ih => simpa [collapseWS, hc, hd] using ih (by simp)
  | case5 c d rest hc hd ih => simp [collapseWS, hc, hd]
  | case6 c d rest hc ih => simp [collapseWS, hc]

theorem mem_collapseWS {c : Char} {l : List Char} (h : c ∈ collapseWS l) :
    c = ' ' ∨ c ∈ l := by
  induction l using collapseWS.induct with
  | case1 => simp [collapseWS] at h
  | case2 a ha =>
    simp only [collapseWS, if_pos ha, List.mem_singleton] at h
    exact Or.inl h
  | case3 a ha =>
    simp only [collapseWS, if_neg ha, List.mem_singleton] at h
    subst h
    exact Or.inr (List.mem_singleton.mpr rfl)
  | case4 a d rest ha hd ih =>
    simp only [collapseWS, if_pos ha, if_pos hd] at h
    rcases ih h with h1 | h2
    · exact Or.inl h1
    · exact Or.inr (List.mem_cons_of_mem a h2)
  | case5 a d rest ha hd ih =>
    simp only [collapseWS, if_pos ha, if_neg hd, List.mem_cons] at h
    rcases h with h1 | h2
    · exact Or.inl h1
    · rcases ih h2 with h3 | h4
      · exact Or.inl h3
      · exact Or.inr (List.mem_cons_of_mem a h4)
  | case6 a d rest ha ih =>
    simp only [collapseWS, if_neg ha, List.mem_cons] at h
    rcases h with h1 | h2
    · exact Or.inr (h1 ▸ List.mem_cons_self a _)
    · rcases ih h2 with h3 | h4
      · exact Or.inl h3
      · exact Or.inr (List.mem_cons_of_mem a h4)

theorem wsNormal_collapseWS (l : List Char) : wsNormal (collapseWS l) := by
  induction l using collapseWS.induct with
  | case1 => simp [collapseWS, wsNormal]
  | case2 c hc =>
    simp only [collapseWS, if_pos hc, wsNormal]
    intro
    trivial
  | case3 c hc =>
    simp only [collapseWS, if_neg hc, wsNormal]
    intro h
    exact absurd h hc
  | case4 c d rest hc hd ih =>
    simpa only [collapseWS, if_pos hc, if_pos hd] using ih
  | case5 c d rest hc hd ih =>
    simp only [collapseWS, if_pos hc, if_neg hd]
    rw [collapseWS_cons_of_not_space rest hd] at ih ⊢
    exact ⟨fun _ => ⟨rfl, Bool.eq_false_iff.mpr hd⟩, ih⟩
  | case6 c d rest hc ih =>
    simp only [collapseWS, if_neg hc]
    rcases hX : collapseWS (d :: rest) with _ | ⟨x, t⟩
    · exact absurd hX (collapseWS_ne_nil (by simp))
    · rw [hX] at ih
      exact ⟨fun h => absurd h hc, ih⟩

theorem collapseWS_eq_self {l : List Char} (h : wsNormal l) : collapseWS l = l := by
  induction l using collapseWS.induct with
  | case1 => rfl
  | case2 c hc =>
    simp only [wsNormal] at h
    rw [h hc]
    decide
  | case3 c hc =>
    simp only [collapseWS, if_neg hc]
  | case4 c d rest hc hd ih =>
    exact absurd (h.1 hc).2 (by simp [hd])
  | case5 c d rest hc hd ih =>
    simp only [collapseWS, if_pos hc, if_neg hd]
    rw [ih h.2, (h.1 hc).1]
  | case6 c d rest hc ih =>
    simp only [collapseWS, if_neg hc]
    rw [ih h.2]

theorem wsNormal_lowerChars {l : List Char} (h : wsNormal l) : wsNormal (lowerChars l) := by
  induction l using wsNormal.induct with
  | case1 => simp [lowerChars, wsNormal]
  | case2 c =>
    simp only [wsNormal] at h
    simp only [lowerChars, List.map_cons, List.map_nil, wsNormal]
    intro hsp
    rw [isPySpace_toLower] at hsp
    rw [h hsp]
    exact toLower_eq_of_not_upper (by simp)
  | case3 c d rest ih =>
    simp only [lowerChars, List.map_cons, wsNormal] at ih ⊢
    refine ⟨?_, ih h.2⟩
    intro hsp
    rw [isPySpace_toLower] at hsp
    obtain ⟨hc, hd⟩ := h.1 hsp
    constructor
    · rw [hc]
      exact toLower_eq_of_not_upper (by simp)
    · rw [isPySpace_toLower]
      exact hd

theorem head?_collapseWS_false {l : List Char}
    (h : ∀ c, l.head? = some c → isPySpace c = false) :
    ∀ c, (collapseWS l).head? = some c → isPySpace c = false := by
  cases l with
  | nil => intro c hc; simp [collapseWS] at hc
  | cons a t =>
    have ha : isPySpace a = false := h a rfl
    rw [collapseWS_cons_of_not_space t (by simp [ha])]
    intro c hc
    simp only [List.head?_cons, Option.some.injEq] at hc
    subst hc
    exact ha

theorem getLast?_collapseWS_false {l : List Char}
    (h : ∀ c, l.getLast? = some c → isPySpace c = false) :
    ∀ c, (collapseWS l).getLast? = some c → isPySpace c = false := by
  induction l using collapseWS.induct with
  | case1 => intro c hc; simp [collapseWS] at hc
  | case2 a ha =>
    exact absurd ha (by simp [h a (by simp)])
  | case3 a ha =>
    intro c hc
    simp only [collapseWS, if_neg ha] at hc
    simp only [List.getLast?_singleton, Option.some.injEq] at hc
    subst hc
    exact Bool.eq_false_iff.mpr ha
  | case4 a d rest ha hd ih =>
    intro c hc
    simp only [collapseWS, if_pos ha, if_pos hd] at hc
    exact ih (fun x hx => h x (by rw [List.getLast?_cons_cons]; exact hx)) c hc
  | case5 a d rest ha hd ih =>
    intro c hc
    simp only [collapseWS, if_pos ha, if_neg hd] at hc
    rw [collapseWS_cons_of_not_space rest hd] at hc
    rw [List.getLast?_cons_cons] at hc
    rw [← collapseWS_cons_of_not_space rest hd] at hc
    exact ih (fun x hx => h x (by rw [List.getLast?_cons_cons]; exact hx)) c hc
  | case6 a d rest ha ih =>
    intro c hc
    simp only [collapseWS, if_neg ha] at hc
    rcases hX : collapseWS (d :: rest) with _ | ⟨x, t⟩
    · exact absurd hX (collapseWS_ne_nil (by simp))
    · rw [hX, List.getLast?_cons_cons] at hc
      rw [← hX] at hc
      exact ih (fun y hy => h y (by rw [List.getLast?_cons_cons]; exact hy)) c hc

theorem head?_lowerChars_false {l : List Char}
    (h : ∀ c, l.head? = some c → isPySpace c = false) :
    ∀ c, (lowerChars l).head? = some c → isPySpace c = false := by
  intro c hc
  unfold lowerChars at hc
  rw [List.head?_map] at hc
  cases hl : l.head? with
  | none => rw [hl] at hc; exact Option.noConfusion hc
  | some d =>
    rw [hl] at hc
    simp only [Option.map_some', Option.some.injEq] at hc
    subst hc
    rw [isPySpace_toLower]
    exact h d hl

theorem getLast?_lowerChars_false {l : List Char}
    (h : ∀ c, l.getLast? = some c → isPySpace c = false) :
    ∀ c, (lowerChars l).getLast? = some c → isPySpace c = false := by
  intro c hc
  unfold lowerChars at hc
  rw [List.getLast?_map] at hc
  cases hl : l.getLast? with
  | none => rw [hl] at hc; exact Option.noConfusion hc
  | some d =>
    rw [hl] at hc
    simp only [Option.map_some', Option.some.injEq] at hc
    subst hc
    rw [isPySpace_toLower]
    exact h d hl

theorem emphFree_normalizeChars (l : List Char) :
    ∀ c ∈ normalizeChars l, ¬ c = '*' ∧ ¬ c = '_' := by
  intro c hc
  unfold normalizeChars lowerChars at hc
  obtain ⟨d, hd, hcd⟩ := List.mem_map.mp hc
  subst hcd
  have hStar : ¬ d = '*' ∧ ¬ d = '_' := by
    rcases mem_collapseWS hd with h1 | h2
    · subst h1
      exact ⟨by decide, by decide⟩
    · have h3 := mem_stripChars h2
      constructor
      · intro he
        subst he
        exact not_star_mem_subStar (mem_subDoubleUnderscore (mem_subUnderscore h3))
      · intro he
        subst he
        exact not_underscore_mem_subUnderscore h3
  constructor
  · rw [toLower_eq_fixed_iff (by decide) (by decide)]
    exact hStar.1
  · rw [toLower_eq_fixed_iff (by decide) (by decide)]
    exact hStar.2

theorem lowerChars_lowerChars (x : List Char) : lowerChars (lowerChars x) = lowerChars x := by
  unfold lowerChars
  rw [List.map_map]
  exact List.map_congr_left (fun a _ => toLower_toLower a)

theorem normalizeChars_idem (l : List Char) :
    normalizeChars (normalizeChars l) = normalizeChars l := by
  have hEmph := emphFree_normalizeChars l
  have hHead : ∀ c, (normalizeChars l).head? = some c → isPySpace c = false := by
    unfold normalizeChars
    exact head?_lowerChars_false (head?_collapseWS_false
      (fun c hc => head?_stripChars_false hc))
  have hLast : ∀ c, (normalizeChars l).getLast? = some c → isPySpace c = false := by
    unfold normalizeChars
    exact getLast?_lowerChars_false (getLast?_collapseWS_false
      (fun c hc => getLast?_stripChars_false hc))
  have hWS : wsNormal (normalizeChars l) := by
    unfold normalizeChars
    exact wsNormal_lowerChars (wsNormal_collapseWS _)
  have hLow : lowerChars (normalizeChars l) = normalizeChars l := by
    unfold normalizeChars
    exact lowerChars_lowerChars _
  conv_lhs => rw [normalizeChars]
  rw [subDoubleStar_eq_self (fun h => (hEmph '*' h).1 rfl)]
  rw [subStar_eq_self (fun h => (hEmph '*' h).1 rfl)]
  rw [subDoubleUnderscore_eq_self (fun h => (hEmph '_' h).2 rfl)]
  rw [subUnderscore_eq_self (fun h => (hEmph '_' h).2 rfl)]
  rw [stripChars_eq_self hHead hLast]
  rw [collapseWS_eq_self hWS]
  exact hLow

/-- C7: the fingerprint normalization `normalize_text` is idempotent —
`normalize_text (normalize_text t) = normalize_text t` for every string —
and formatting-invariant, as witnessed by the spec's example
`normalize_text " **Hello**  world " = normalize_text "hello world"`. -/
theorem normalize_text_idempotent_invariant :
    (∀ t : String, normalize_text (normalize_text t) = normalize_text t) ∧
    normalize_text " **Hello**  world " = normalize_text "hello world" := by
  constructor
  · intro t
    unfold normalize_text
    exact congrArg String.mk (normalizeChars_idem t.data)
  · decide

/-- C9: the PATCH payload of `update_notion_page` never touches the
`Title`, `Author` or `Category` properties: for every book it contains
only the highlight count, the last-synced timestamp, the optional
last-highlighted date, and the optional cover/icon URL. -/
theorem update_payload_frame (current_time : String) (b : Book) :
    "Title" ∉ ((update_notion_page current_time b).properties.map Prod.fst) ∧
    "Author" ∉ ((update_notion_page current_time b).properties.map Prod.fst) ∧
    "Category" ∉ ((update_notion_page current_time b).properties.map Prod.fst) ∧
    (∀ k ∈ (update_notion_page current_time b).properties.map Prod.fst,
      k = "Highlights" ∨ k = "Last Synced" ∨ k = "Last Highlighted") ∧
    ("Last Highlighted" ∈ ((update_notion_page current_time b).properties.map Prod.fst) ↔
      b.last_highlight_at.isSome = true) ∧
    (update_notion_page current_time b).cover = b.cover_image_url ∧
    (update_notion_page current_time b).icon = b.cover_image_url := by
  cases hb : b.last_highlight_at <;> simp [update_notion_page, hb]

/-- C8 counterexample: when the `try` body of `main` raises, the process
exit status is 0, not non-zero — `main` catches the exception, prints,
and returns normally (there is no `sys.exit` in the handler). -/
theorem main_exit_status_zero_cex : (mainHandler (Except.error errW)).2 = 0 := rfl

/-- C8 (amended): when an uncaught exception reaches the top level of
`main`, the program prints an error summary (exception type and message)
and a full trace, but the process exits with status 0 (the handler
swallows the exception and `main` returns normally). -/
theorem main_error_report_exit_zero (e : PyErr) :
    "❌ ERROR OCCURRED:" ∈ (mainHandler (Except.error e)).1 ∧
    ("   " ++ e.typeName ++ ": " ++ e.message) ∈ (mainHandler (Except.error e)).1 ∧
    "<traceback>" ∈ (mainHandler (Except.error e)).1 ∧
    (mainHandler (Except.error e)).2 = 0 := by
  simp [mainHandler]

theorem appendStep_blocks (existing : List String) (acc : AppendAcc) (h : Highlight) :
    (appendStep existing acc h).blocks = acc.blocks ++ highlightBlocks existing h := by
  unfold appendStep highlightBlocks
  by_cases hf : fingerprintOf h.text ∈ existing
  · simp [hf]
  · by_cases hn : h.note.getD "" ≠ ""
    · simp [hf, hn]
    · simp [hf, hn]

theorem appendStep_newCount (existing : List String) (acc : AppendAcc) (h : Highlight) :
    (appendStep existing acc h).newCount =
      acc.newCount + (if fingerprintOf h.text ∈ existing then 0 else 1) := by
  unfold appendStep
  by_cases hf : fingerprintOf h.text ∈ existing
  · simp [hf]
  · by_cases hn : h.note.getD "" ≠ ""
    · simp [hf, hn]
    · simp [hf, hn]

theorem foldl_appendStep_blocks (existing : List String) :
    ∀ (hs : List Highlight) (acc : AppendAcc),
      (hs.foldl (appendStep existing) acc).blocks =
        acc.blocks ++ (hs.map (highlightBlocks existing)).flatten := by
  intro hs
  induction hs with
  | nil => intro acc; simp
  | cons h t ih =>
    intro acc
    rw [List.foldl_cons, ih, appendStep_blocks, List.map_cons, List.flatten, List.append_assoc]

theorem foldl_appendStep_newCount (existing : List String) :
    ∀ (hs : List Highlight) (acc : AppendAcc),
      (hs.foldl (appendStep existing) acc).newCount =
        acc.newCount +
          (hs.filter (fun h => !(decide (fingerprintOf h.text ∈ existing)))).length := by
  intro hs
  induction hs with
  | nil => intro acc; simp
  | cons h t ih =>
    intro acc
    rw [List.foldl_cons, ih, appendStep_newCount]
    by_cases hf : fingerprintOf h.text ∈ existing
    · simp [hf, Nat.add_assoc]
    · simp [hf]
      omega

theorem countQuotes_append (l1 l2 : List Block) :
    countQuotes (l1 ++ l2) = countQuotes l1 + countQuotes l2 := by
  unfold countQuotes
  rw [List.filter_append, List.length_append]

theorem countQuotes_highlightBlocks (existing : List String) (h : Highlight) :
    countQuotes (highlightBlocks existing h) =
      (if fingerprintOf h.text ∈ existing then 0 else 1) := by
  unfold highlightBlocks countQuotes
  by_cases hf : fingerprintOf h.text ∈ existing
  · simp [hf]
  · by_cases hn : h.note.getD "" ≠ ""
    · simp [hf, hn, List.filter]
    · simp [hf, hn, List.filter]

theorem countQuotes_join_map (existing : List String) :
    ∀ hs : List Highlight,
      countQuotes ((hs.map (highlightBlocks existing)).flatten) =
        (hs.filter (fun h => !(decide (fingerprintOf h.text ∈ existing)))).length := by
  intro hs
  induction hs with
  | nil => simp [countQuotes]
  | cons h t ih =>
    rw [List.map_cons, List.flatten, countQuotes_append, ih, countQuotes_highlightBlocks]
    by_cases hf : fingerprintOf h.text ∈ existing
    · simp [hf]
    · simp [hf]
      omega

theorem filter_length_sortHighlights (p : Highlight → Bool) (hs : List Highlight) :
    ((sortHighlights hs).filter p).length = (hs.filter p).length :=
  ((List.perm_insertionSort highlightLE hs).filter p).length_eq

theorem chunkGo_ne_nil (rest : List Block) (b : Block) (cur : List Block) (cap : Nat) :
    chunkGo (b :: rest) cur cap ≠ [] := by
  induction rest generalizing b cur cap with
  | nil =>
    unfold chunkGo
    by_cases hc : cap ≤ 1
    · simp [hc]
    · simp [hc, chunkGo]
  | cons b2 t ih =>
    unfold chunkGo
    by_cases hc : cap ≤ 1
    · simp [hc]
    · simp only [if_neg hc]
      exact ih b2 (b :: cur) (cap - 1)

theorem chunkGo_join : ∀ (l cur : List Block) (cap : Nat),
    (chunkGo l cur cap).flatten = cur.reverse ++ l := by
  intro l
  induction l with
  | nil =>
    intro cur cap
    unfold chunkGo
    by_cases hc : cur.isEmpty
    · simp [hc, List.isEmpty_iff.mp hc]
    · simp [hc]
  | cons b rest ih =>
    intro cur cap
    unfold chunkGo
    by_cases hc : cap ≤ 1
    · simp only [if_pos hc, List.flatten, ih]
      simp
    · simp only [if_neg hc, ih]
      simp

/-- C5: in `append_highlights_to_page`, every highlight whose fingerprint
(normalized first 1000 characters) is already among the page's
existing-quote fingerprints emits no block; every other highlight emits a
quote block (text truncated to 2000 characters) followed by a callout
block exactly when a note exists; and when zero new blocks result no
PATCH request is made (and conversely). -/
theorem append_dedup_blocks (existing : List String) (hs : List Highlight) :
    (appendLoop existing hs).blocks =
      ((sortHighlights hs).map (highlightBlocks existing)).flatten ∧
    (∀ h, fingerprintOf h.text ∈ existing → highlightBlocks existing h = []) ∧
    (∀ h, fingerprintOf h.text ∉ existing →
      highlightBlocks existing h =
        Block.quote (pyTake 2000 h.text) ::
          (if h.note.getD "" ≠ "" then
            [Block.callout ("Note: " ++ pyTake 2000 (h.note.getD "")) "💭"]
          else [])) ∧
    (append_highlights_to_page existing hs = [] ↔
      ∀ h ∈ hs, fingerprintOf h.text ∈ existing) := by
  have hblocks : (appendLoop existing hs).blocks =
      ((sortHighlights hs).map (highlightBlocks existing)).flatten := by
    unfold appendLoop
    rw [foldl_appendStep_blocks]
    simp
  have hcount : (appendLoop existing hs).newCount =
      (hs.filter (fun h => !(decide (fingerprintOf h.text ∈ existing)))).length := by
    unfold appendLoop
    rw [foldl_appendStep_newCount, filter_length_sortHighlights]
    simp
  refine ⟨hblocks, ?_, ?_, ?_⟩
  · intro h hf
    unfold highlightBlocks
    rw [if_pos hf]
  · intro h hf
    unfold highlightBlocks
    rw [if_neg hf]
  · constructor
    · intro happ h hmem
      by_contra hf
      have hpos : (hs.filter (fun x => !(decide (fingerprintOf x.text ∈ existing)))).length ≠ 0 := by
        intro hz
        have hnil := List.length_eq_zero.mp hz
        have := List.filter_eq_nil_iff.mp hnil h hmem
        simp only [Bool.not_eq_true, decide_eq_false_iff_not] at this
        simp at this
        exact hf this
      have hnc : (appendLoop existing hs).newCount ≠ 0 := by
        rw [hcount]
        exact hpos
      unfold append_highlights_to_page at happ
      rw [if_neg hnc] at happ
      have hq : countQuotes (appendLoop existing hs).blocks ≠ 0 := by
        rw [hblocks, countQuotes_join_map, filter_length_sortHighlights]
        exact hpos
      cases hb : (appendLoop existing hs).blocks with
      | nil => rw [hb] at hq; simp [countQuotes] at hq
      | cons b rest =>
        rw [hb] at happ
        exact chunkGo_ne_nil rest b [] 100 happ
    · intro hall
      have hz : (appendLoop existing hs).newCount = 0 := by
        rw [hcount, List.length_eq_zero, List.filter_eq_nil_iff]
        intro x hx
        simp [hall x hx]
      unfold append_highlights_to_page
      rw [if_pos hz]

/-- C10: the existing-fingerprint set is fixed before the loop and never
extended during it, so deduplication applies only against content already
on the page: the number of quote blocks built equals the number of input
highlights, with multiplicity, whose fingerprint is absent from the page
— two new highlights with equal fingerprints are both emitted — and each
such highlight's quote block actually occurs in the output. -/
theorem batch_no_intra_dedup (existing : List String) (hs : List Highlight) :
    countQuotes (appendLoop existing hs).blocks =
      (hs.filter (fun h => !(decide (fingerprintOf h.text ∈ existing)))).length ∧
    ∀ h ∈ hs, fingerprintOf h.text ∉ existing →
      Block.quote (pyTake 2000 h.text) ∈ (appendLoop existing hs).blocks := by
  have hblocks : (appendLoop existing hs).blocks =
      ((sortHighlights hs).map (highlightBlocks existing)).flatten := by
    unfold appendLoop
    rw [foldl_appendStep_blocks]
    simp
  constructor
  · rw [hblocks, countQuotes_join_map, filter_length_sortHighlights]
  · intro h hmem hf
    rw [hblocks]
    rw [List.mem_flatten]
    refine ⟨highlightBlocks existing h, List.mem_map_of_mem _ ?_, ?_⟩
    · exact ((List.perm_insertionSort highlightLE hs).mem_iff).mpr hmem
    · unfold highlightBlocks
      rw [if_neg hf]
      exact List.mem_cons_self _ _

/-- C6: `append_highlights_to_page` sorts its input ascending by the
`highlighted_at` key before building blocks: the block list is assembled
in the order of `sortHighlights`, and a highlight with a strictly earlier
timestamp can never appear after one with a strictly later timestamp in
that order, whatever the input order was. -/
theorem append_chronological_order (existing : List String) (hs : List Highlight)
    (a b : Highlight) (hab : hkey a < hkey b) :
    (appendLoop existing hs).blocks =
      ((sortHighlights hs).map (highlightBlocks existing)).flatten ∧
    ∀ pre mid post, sortHighlights hs ≠ pre ++ b :: mid ++ a :: post := by
  constructor
  · unfold appendLoop
    rw [foldl_appendStep_blocks]
    simp
  · intro pre mid post heq
    have hsorted : List.Sorted highlightLE (sortHighlights hs) :=
      List.sorted_insertionSort highlightLE hs
    rw [heq] at hsorted
    have h3 := (List.pairwise_append.mp hsorted).2.2 b
      (List.mem_append_right pre (List.mem_cons_self b mid)) a (List.mem_cons_self a post)
    unfold highlightLE at h3
    exact absurd hab (not_lt.mpr h3)

end RWSync
namespace RWSync

/-- Witness for C6 at a concrete input: the strictly-earlier highlight is
never placed after the later one by `sortHighlights`. -/
theorem append_chronological_order_witness :
    hkey hlA < hkey hlB ∧
    ((appendLoop [] [hlB, hlA]).blocks =
      ((sortHighlights [hlB, hlA]).map (highlightBlocks [])).flatten ∧
    ∀ pre mid post, sortHighlights [hlB, hlA] ≠ pre ++ hlB :: mid ++ hlA :: post) :=
  ⟨by rw [String.lt_iff_toList_lt]; decide,
   append_chronological_order [] [hlB, hlA] hlA hlB
     (by rw [String.lt_iff_toList_lt]; decide)⟩

/-- C2: an item with no matching destination page whose id is already in
the persisted synced-id set takes the SKIP path: no page is created and no
update or append is performed for it (its only effect is the skip), no
exception is raised, and the loop continues with the remaining items. -/
theorem skip_path_no_writes (env : Env) (lastSync : Option String)
    (synced : List Nat) (pageOf : String → Option Page) (b : Book)
    (rest : List Book) (h1 : pageOf b.title = none) (h2 : b.id ∈ synced) :
    processBook env lastSync synced pageOf b = ⟨[Effect.skipItemEff b.id], [], none⟩ ∧
    processBooks env lastSync synced pageOf (b :: rest) =
      ⟨Effect.skipItemEff b.id :: (processBooks env lastSync synced pageOf rest).trace,
       (processBooks env lastSync synced pageOf rest).ids,
       (processBooks env lastSync synced pageOf rest).err⟩ := by
  have hp : processBook env lastSync synced pageOf b =
      ⟨[Effect.skipItemEff b.id], [], none⟩ := by
    unfold processBook
    rw [h1]
    simp [h2]
  refine ⟨hp, ?_⟩
  rw [processBooks.eq_2, hp]
  simp

end RWSync
namespace RWSync

/-- C1: on the UPDATE path (a destination page exists for the item's
title), the metadata patch request is always issued; and in a processing
of the item that raises no exception, the highlight fetch (filtered since
`last_sync_time`) happens exactly when the item's highlight count exceeds
the count recorded on the page, and the fetched highlights are appended
exactly when the count exceeds and the fetch returned at least one
highlight (the spec's logged count-increased-but-empty anomaly). -/
theorem update_path_patch_fetch_append (env : Env) (lastSync : Option String)
    (synced : List Nat) (pageOf : String → Option Page) (b : Book) (page : Page)
    (hpage : pageOf b.title = some page) :
    Effect.updatePageEff page.pid (update_notion_page env.now b) ∈
      (processBook env lastSync synced pageOf b).trace ∧
    ((processBook env lastSync synced pageOf b).err = none →
      (Effect.fetchHighlightsEff b.id lastSync ∈
          (processBook env lastSync synced pageOf b).trace ↔
        b.num_highlights > page.highlightsNumber.getD 0)) ∧
    ((processBook env lastSync synced pageOf b).err = none →
      ∀ hs, env.fetchHighlights b.id lastSync = Except.ok hs →
        (Effect.appendHighlightsEff page.pid hs ∈
            (processBook env lastSync synced pageOf b).trace ↔
          (b.num_highlights > page.highlightsNumber.getD 0 ∧ hs ≠ []))) := by
  unfold processBook
  rw [hpage]
  cases hpatch : env.patchPageResult page.pid with
  | error e =>
    simp [hpatch]
  | ok u =>
    simp only [hpatch]
    by_cases hcnt : b.num_highlights > page.highlightsNumber.getD 0
    · rw [if_pos hcnt]
      cases hfetch : env.fetchHighlights b.id lastSync with
      | error e =>
        simp [hfetch]
      | ok hs =>
        simp only [hfetch]
        by_cases hemp : hs.isEmpty
        · rw [if_pos hemp]
          refine ⟨by simp, by simp [hcnt], ?_⟩
          intro _ hs2 hok
          cases hok
          simp [List.isEmpty_iff.mp hemp]
        · rw [if_neg hemp]
          cases happ : env.appendResult page.pid hs with
          | error e =>
            simp [happ]
          | ok u2 =>
            simp only [happ]
            refine ⟨by simp, by simp [hcnt], ?_⟩
            intro _ hs2 hok
            cases hok
            constructor
            · intro _
              refine ⟨hcnt, fun hnil => hemp ?_⟩
              rw [hnil]
              rfl
            · intro _
              simp
    · rw [if_neg hcnt]
      refine ⟨by simp, by simp [hcnt], ?_⟩
      intro _ hs hok
      simp [hcnt]

end RWSync
namespace RWSync

theorem processBook_no_save (env : Env) (lastSync : Option String) (synced : List Nat)
    (pageOf : String → Option Page) (b : Book) (t : String) :
    Effect.saveLastSyncTimeEff t ∉ (processBook env lastSync synced pageOf b).trace := by
  unfold processBook
  repeat' split
  all_goals simp

theorem processBooks_no_save (env : Env) (lastSync : Option String) (synced : List Nat)
    (pageOf : String → Option Page) (books : List Book) (t : String) :
    Effect.saveLastSyncTimeEff t ∉ (processBooks env lastSync synced pageOf books).trace := by
  induction books with
  | nil => simp [processBooks]
  | cons b rest ih =>
    rw [processBooks.eq_2]
    cases herr : (processBook env lastSync synced pageOf b).err with
    | some e =>
      simp only []
      exact processBook_no_save env lastSync synced pageOf b t
    | none =>
      simp only [List.mem_append, not_or]
      exact ⟨processBook_no_save env lastSync synced pageOf b t, ih⟩

/-- C3: the persisted `last_sync_time` is written only after an entire
`full_sync` run completes without a fatal error: a run that raises
anywhere leaves the stored state (in particular `last_sync_time`)
unchanged, and no `save_last_sync_time` write occurs in its trace. -/
theorem last_sync_time_only_after_success (env : Env) (st : SyncState) (e : PyErr)
    (h : (full_sync env st).err = some e) :
    (full_sync env st).state = st ∧
    ∀ t, Effect.saveLastSyncTimeEff t ∉ (full_sync env st).trace := by
  unfold full_sync at h ⊢
  cases hfb : env.fetchBooks st.last_sync_time with
  | error e2 => simp [hfb]
  | ok books =>
    simp only [hfb] at h ⊢
    by_cases hemp : books.isEmpty
    · rw [if_pos hemp] at h
      simp at h
    · rw [if_neg hemp] at h ⊢
      cases hsp : env.searchPages (books.map (fun b => b.title)) with
      | error e2 => simp [hsp]
      | ok pageOf =>
        simp only [hsp] at h ⊢
        cases herr : (processBooks env st.last_sync_time st.synced_items pageOf books).err with
        | some e2 =>
          simp only [herr]
          refine ⟨by trivial, ?_⟩
          intro t
          simp only [List.mem_append, List.mem_cons, not_or]
          refine ⟨?_, ?_⟩
          · simp
          · exact processBooks_no_save env st.last_sync_time st.synced_items pageOf books t
        | none =>
          rw [herr] at h
          simp at h

end RWSync
namespace RWSync

theorem processBook_ids_of_err_none (env : Env) (lastSync : Option String)
    (synced : List Nat) (pageOf : String → Option Page) (b : Book)
    (h : (processBook env lastSync synced pageOf b).err = none) :
    (processBook env lastSync synced pageOf b).ids =
      (if (pageOf b.title).isSome || !(decide (b.id ∈ synced)) then [b.id] else []) := by
  unfold processBook at h ⊢
  cases hpage : pageOf b.title with
  | some page =>
    simp only [hpage] at h ⊢
    repeat' split
    all_goals simp_all
  | none =>
    simp only [hpage] at h ⊢
    repeat' split
    all_goals simp_all

theorem processBooks_ids_of_err_none (env : Env) (lastSync : Option String)
    (synced : List Nat) (pageOf : String → Option Page) (books : List Book)
    (h : (processBooks env lastSync synced pageOf books).err = none) :
    (processBooks env lastSync synced pageOf books).ids =
      (books.filter
        (fun b => (pageOf b.title).isSome || !(decide (b.id ∈ synced)))).map
        (fun b => b.id) := by
  induction books with
  | nil => simp [processBooks]
  | cons b rest ih =>
    rw [processBooks.eq_2] at h ⊢
    cases herr : (processBook env lastSync synced pageOf b).err with
    | some e =>
      rw [herr] at h
      simp at h
    | none =>
      rw [herr] at h
      dsimp only at h ⊢
      rw [List.filter_cons]
      rw [processBook_ids_of_err_none env lastSync synced pageOf b herr]
      by_cases hc : ((pageOf b.title).isSome || !(decide (b.id ∈ synced))) = true
      · rw [if_pos hc, if_pos hc, List.map_cons]
        rw [ih h]
        rfl
      · rw [if_neg hc, if_neg hc]
        rw [ih h]
        rfl

theorem mem_unionIds (old : List Nat) (new : List Nat) (x : Nat) :
    x ∈ unionIds old new ↔ x ∈ old ∨ x ∈ new := by
  induction new generalizing old with
  | nil => simp [unionIds]
  | cons i t ih =>
    unfold unionIds at ih ⊢
    rw [List.foldl_cons]
    rw [ih]
    by_cases hi : i ∈ old
    · constructor
      · rw [if_pos hi]
        intro hin
        rcases hin with h1 | h2
        · exact Or.inl h1
        · exact Or.inr (List.mem_cons_of_mem i h2)
      · rw [if_pos hi]
        intro hin
        rcases hin with h1 | h2
        · exact Or.inl h1
        · rcases List.mem_cons.mp h2 with h3 | h4
          · exact Or.inl (h3 ▸ hi)
          · exact Or.inr h4
    · rw [if_neg hi]
      constructor
      · intro hin
        rcases hin with h1 | h2
        · rcases List.mem_append.mp h1 with h3 | h4
          · exact Or.inl h3
          · exact Or.inr (List.mem_cons.mpr (Or.inl (List.mem_singleton.mp h4)))
        · exact Or.inr (List.mem_cons_of_mem i h2)
      · intro hin
        rcases hin with h1 | h2
        · exact Or.inl (List.mem_append.mpr (Or.inl h1))
        · rcases List.mem_cons.mp h2 with h3 | h4
          · exact Or.inl (List.mem_append.mpr (Or.inr (List.mem_singleton.mpr h3)))
          · exact Or.inr h4

/-- C4: across a successful run the persisted synced-id set only grows:
the set written at the end equals the union of the previously loaded set
with `runIds` — the ids of the fetched items that took the CREATE or
UPDATE path — and every previously stored id is still stored. -/
theorem synced_ids_monotone_union (env : Env) (st : SyncState)
    (h : (full_sync env st).err = none) :
    (∀ x ∈ st.synced_items, x ∈ (full_sync env st).state.synced_items) ∧
    (∀ x, x ∈ (full_sync env st).state.synced_items ↔
      x ∈ st.synced_items ∨ x ∈ runIds env st) := by
  unfold full_sync at h ⊢
  unfold runIds
  cases hfb : env.fetchBooks st.last_sync_time with
  | error e => simp [hfb] at h
  | ok books =>
    simp only [hfb] at h ⊢
    by_cases hemp : books.isEmpty
    · rw [if_pos hemp] at h ⊢
      rw [if_pos hemp]
      simp
    · rw [if_neg hemp] at h ⊢
      rw [if_neg hemp]
      cases hsp : env.searchPages (books.map (fun b => b.title)) with
      | error e => simp [hsp] at h
      | ok pageOf =>
        simp only [hsp] at h ⊢
        cases herr : (processBooks env st.last_sync_time st.synced_items pageOf books).err with
        | some e =>
          rw [herr] at h
          simp at h
        | none =>
          dsimp only
          constructor
          · intro x hx
            exact (mem_unionIds st.synced_items _ x).mpr (Or.inl hx)
          · intro x
            rw [mem_unionIds]
            rw [processBooks_ids_of_err_none env st.last_sync_time st.synced_items pageOf books herr]

end RWSync
namespace RWSync

/-- Witness for C1 at a concrete input. -/
theorem update_path_patch_fetch_append_witness :
    pageOfW bookW.title = some pageW ∧
    (Effect.updatePageEff pageW.pid (update_notion_page envW.now bookW) ∈
      (processBook envW stW.last_sync_time stW.synced_items pageOfW bookW).trace ∧
    ((processBook envW stW.last_sync_time stW.synced_items pageOfW bookW).err = none →
      (Effect.fetchHighlightsEff bookW.id stW.last_sync_time ∈
          (processBook envW stW.last_sync_time stW.synced_items pageOfW bookW).trace ↔
        bookW.num_highlights > pageW.highlightsNumber.getD 0)) ∧
    ((processBook envW stW.last_sync_time stW.synced_items pageOfW bookW).err = none →
      ∀ hs, envW.fetchHighlights bookW.id stW.last_sync_time = Except.ok hs →
        (Effect.appendHighlightsEff pageW.pid hs ∈
            (processBook envW stW.last_sync_time stW.synced_items pageOfW bookW).trace ↔
          (bookW.num_highlights > pageW.highlightsNumber.getD 0 ∧ hs ≠ [])))) :=
  ⟨rfl, update_path_patch_fetch_append envW stW.last_sync_time stW.synced_items
    pageOfW bookW pageW rfl⟩

/-- Witness for C2 at a concrete input. -/
theorem skip_path_no_writes_witness :
    pageOfW bookSkipW.title = none ∧ bookSkipW.id ∈ stW.synced_items ∧
    (processBook envW stW.last_sync_time stW.synced_items pageOfW bookSkipW =
        ⟨[Effect.skipItemEff bookSkipW.id], [], none⟩ ∧
      processBooks envW stW.last_sync_time stW.synced_items pageOfW [bookSkipW] =
        ⟨Effect.skipItemEff bookSkipW.id ::
            (processBooks envW stW.last_sync_time stW.synced_items pageOfW []).trace,
          (processBooks envW stW.last_sync_time stW.synced_items pageOfW []).ids,
          (processBooks envW stW.last_sync_time stW.synced_items pageOfW []).err⟩) :=
  ⟨rfl, by decide,
   skip_path_no_writes envW stW.last_sync_time stW.synced_items pageOfW bookSkipW []
     rfl (by decide)⟩

/-- Witness for C3 at a concrete input. -/
theorem last_sync_time_only_after_success_witness :
    (full_sync envErrW stW).err = some ⟨"HTTPError", "500 Server Error"⟩ ∧
    ((full_sync envErrW stW).state = stW ∧
      ∀ t, Effect.saveLastSyncTimeEff t ∉ (full_sync envErrW stW).trace) :=
  ⟨rfl, last_sync_time_only_after_success envErrW stW ⟨"HTTPError", "500 Server Error"⟩ rfl⟩

/-- Witness for C4 at a concrete input. -/
theorem synced_ids_monotone_union_witness :
    (full_sync envW stW).err = none ∧
    ((∀ x ∈ stW.synced_items, x ∈ (full_sync envW stW).state.synced_items) ∧
      (∀ x, x ∈ (full_sync envW stW).state.synced_items ↔
        x ∈ stW.synced_items ∨ x ∈ runIds envW stW)) :=
  ⟨rfl, synced_ids_monotone_union envW stW rfl⟩

end RWSync
